import Mathlib

/-!
Verification of the labelbycondition module: a prioritized-rule labeler that
derives a dictionary-encoded categorical column from a list of
(value, condition) rules, evaluated first-match-wins over the rows of a table.

The embedding follows src/labelbycondition.py. The external collaborators
(the condition evaluator condition_to_mask and the column-name sanitizer
gen_unique_clean_colnames_and_warn) are modelled at their interfaces: a
condition is identified with its evaluation outcome against the fixed input
table (a pattern error or a boolean mask of one entry per row), and the
sanitizer is a function parameter.
-/

set_option maxHeartbeats 1000000

namespace LabelByCondition

/-- A structural pattern error raised by the condition evaluator
(re.error in the source): the offending pattern text and its message. -/
structure RegexError where
  pattern : String
  msg : String
deriving DecidableEq

/-- Outcome of condition_to_mask for one condition against the fixed input
table: a pattern error, or a boolean mask with one entry per row. -/
inductive CondEval where
  | err (e : RegexError)
  | mask (m : List Bool)
deriving DecidableEq

/-- A user-facing i18n message: message id plus the two arguments the module
passes (the offending value and the explanatory message). -/
structure I18nMessage where
  mid : String
  value : String
  message : String
deriving DecidableEq

/-- i18n.trans of the error.invalidRegex message, as built on lines 31-37 of
the source. -/
def transInvalidRegex (e : RegexError) : I18nMessage :=
  { mid := "error.invalidRegex", value := e.pattern, message := e.msg }

/-- One element of params["labels"]: a label value and a condition
(absent = None). -/
structure LabelSpec where
  value : String
  condition : Option CondEval
deriving DecidableEq

/-- The mutable state of _generate_label_column: accumulated errors, the
is-null bitmap, the dictionary values in first-used order, and the per-row
dictionary indices. -/
structure GenState where
  errors : List I18nMessage
  nulls : List Bool
  values : List String
  indices : List Nat
deriving DecidableEq

/-- mask.to_numpy() & nulls (line 40 of the source). -/
def andMask (mask nulls : List Bool) : List Bool :=
  List.zipWith (fun m n => m && n) mask nulls

/-- nulls[np_mask] = False (line 53 of the source). -/
def clearMask (np_mask nulls : List Bool) : List Bool :=
  List.zipWith (fun m n => if m then false else n) np_mask nulls

/-- indices[np_mask] = index (line 55 of the source). -/
def writeIdx (np_mask : List Bool) (index : Nat) (indices : List Nat) : List Nat :=
  List.zipWith (fun m i => if m then index else i) np_mask indices

/-- values.index(value) with its ValueError fallback (lines 47-51): the
resolved dictionary index and the possibly-extended values list. -/
def resolveValue (values : List String) (value : String) : Nat × List String :=
  match values.indexOf? value with
  | some i => (i, values)
  | none => (values.length, values ++ [value])

/-- The body of the per-rule loop of _generate_label_column
(lines 21-55 of the source). -/
def processSpec (st : GenState) (label_spec : LabelSpec) : GenState :=
  match label_spec.condition with
  | none => st
  | some (.err e) => { st with errors := st.errors ++ [transInvalidRegex e] }
  | some (.mask mask) =>
    let np_mask := andMask mask st.nulls
    if np_mask.any id then
      let p := resolveValue st.values label_spec.value
      { st with
        nulls := clearMask np_mask st.nulls
        values := p.2
        indices := if p.1 > 0 then writeIdx np_mask p.1 st.indices else st.indices }
    else st

/-- The assembler _generate_label_column: fold the per-rule loop over an all-null,
all-zero-index initial state. The returned DictionaryArray is the triple
(indices, nulls, values); errors is the accumulated error list. -/
def _generate_label_column (numRows : Nat) (label_specs : List LabelSpec) : GenState :=
  label_specs.foldl processSpec
    { errors := [], nulls := List.replicate numRows true,
      values := [], indices := List.replicate numRows 0 }

/-- Reading the produced DictionaryArray at row r: none when the null bitmap
is set, otherwise the dictionary value the index points to. -/
def rowLabel (st : GenState) (r : Nat) : Option String :=
  if st.nulls.getD r true then none
  else st.values.get? (st.indices.getD r 0)

/-- Specification-side description of first-match-wins: the value of the
first rule whose condition is present, evaluates without error, and whose
mask is true at row r. -/
def firstMatch : List LabelSpec → Nat → Option String
  | [], _ => none
  | s :: rest, r =>
    match s.condition with
    | some (.mask mask) =>
      if mask.getD r false then some s.value else firstMatch rest r
    | _ => firstMatch rest r

/-- Evaluator contract for one condition: a successful mask has one entry
per row. -/
def condLenOK (numRows : Nat) : Option CondEval → Bool
  | some (.mask m) => m.length == numRows
  | _ => true

/-- True when the condition of the rule does not evaluate to a pattern error. -/
def noErrCond (s : LabelSpec) : Bool :=
  match s.condition with
  | some (.err _) => false
  | _ => true

/-- The errors _generate_label_column accumulates: one per rule whose
condition evaluates to a pattern error, in rule order. -/
def errorsOf (specs : List LabelSpec) : List I18nMessage :=
  specs.filterMap (fun s =>
    match s.condition with
    | some (.err e) => some (transInvalidRegex e)
    | _ => none)

/-- Specification-side sequence of the label values of the rules whose
effective mask (raw mask AND current nulls) selects at least one row, in
processing order, tracking the evolving null bitmap. -/
def effValues : List LabelSpec → List Bool → List String
  | [], _ => []
  | s :: rest, nulls =>
    match s.condition with
    | some (.mask mask) =>
      let np := andMask mask nulls
      if np.any id then s.value :: effValues rest (clearMask np nulls)
      else effValues rest nulls
    | _ => effValues rest nulls

/-- Append to seen each element of the first list not already present,
keeping first occurrences only. -/
def dedupAgainst : List String → List String → List String
  | [], seen => seen
  | v :: vs, seen =>
    if v ∈ seen then dedupAgainst vs seen else dedupAgainst vs (seen ++ [v])

/-- Column payloads a table can hold: opaque pre-existing data, or the
dictionary-encoded label column the module produces. -/
inductive ColumnData where
  | base (payload : List Int)
  | dict (indices : List Nat) (nulls : List Bool) (values : List String)
deriving DecidableEq

/-- A pyarrow table: its row count and its ordered named columns. -/
structure Table where
  numRows : Nat
  cols : List (String × ColumnData)
deriving DecidableEq

/-- arrow_table.set_column(i, name, data) (line 70 of the source). -/
def set_column {α : Type} (cols : List (String × α)) (i : Nat) (name : String)
    (data : α) : List (String × α) :=
  cols.set i (name, data)

/-- The merger _add_column: replace in place when the name exists (no warnings),
otherwise sanitize the name through the external utility and append
(lines 65-77 of the source). Generic in the column payload. -/
def _add_column {α : Type} (cols : List (String × α)) (name : String) (data : α)
    (sanitize : String → List String → String × List I18nMessage) :
    List (String × α) × List I18nMessage :=
  let column_names := cols.map Prod.fst
  if name ∈ column_names then
    (set_column cols (column_names.indexOf name) name data, [])
  else
    let p := sanitize name column_names
    (cols ++ [(p.1, data)], p.2)

/-- render (lines 80-98 of the source). Writing the output file is modelled
as the first component: some table when a dataset is produced, none when the
error list suppresses output. -/
def render (arrow_table : Table) (colname : String) (labels : List LabelSpec)
    (sanitize : String → List String → String × List I18nMessage) :
    Option Table × List I18nMessage :=
  if colname = "" then (some arrow_table, [])
  else
    let g := _generate_label_column arrow_table.numRows labels
    if g.errors.isEmpty then
      let p := _add_column arrow_table.cols colname
        (ColumnData.dict g.indices g.nulls g.values) sanitize
      (some { arrow_table with cols := p.1 }, p.2)
    else (none, g.errors)

/-- Naive variant of the loop body: writes the resolved index for every row
the effective mask selects, without the index-is-zero write-skipping
optimization of line 54. -/
def processSpecNaive (st : GenState) (label_spec : LabelSpec) : GenState :=
  match label_spec.condition with
  | none => st
  | some (.err e) => { st with errors := st.errors ++ [transInvalidRegex e] }
  | some (.mask mask) =>
    let np_mask := andMask mask st.nulls
    if np_mask.any id then
      let p := resolveValue st.values label_spec.value
      { st with
        nulls := clearMask np_mask st.nulls
        values := p.2
        indices := writeIdx np_mask p.1 st.indices }
    else st

/-- The assembler _generate_label_column with the naive unconditional index write. -/
def _generate_label_column_naive (numRows : Nat) (label_specs : List LabelSpec) :
    GenState :=
  label_specs.foldl processSpecNaive
    { errors := [], nulls := List.replicate numRows true,
      values := [], indices := List.replicate numRows 0 }

end LabelByCondition
namespace LabelByCondition

/-! ### Pointwise lemmas for the mask operations -/

lemma zipWith_getD {α β γ : Type} (f : α → β → γ) (a : List α) (b : List β)
    (h : a.length = b.length) {r : Nat} (da : α) (db : β) (dc : γ)
    (hr : r < a.length) :
    (List.zipWith f a b).getD r dc = f (a.getD r da) (b.getD r db) := by
  have hb : r < b.length := h ▸ hr
  have hz : r < (List.zipWith f a b).length := by
    rw [List.length_zipWith]; omega
  rw [List.getD_eq_getElem _ _ hz, List.getD_eq_getElem _ _ hr,
    List.getD_eq_getElem _ _ hb]
  rw [List.getElem_zipWith]

lemma zipWith_getD_oob {α β γ : Type} (f : α → β → γ) (a : List α) (b : List β)
    {r : Nat} (dc : γ) (hr : a.length ≤ r ∨ b.length ≤ r) :
    (List.zipWith f a b).getD r dc = dc := by
  rw [List.getD_eq_getElem?_getD, List.getElem?_eq_none]
  · rfl
  · rw [List.length_zipWith]; omega

lemma length_andMask (mask nulls : List Bool) :
    (andMask mask nulls).length = min mask.length nulls.length := by
  simp [andMask]

lemma length_clearMask (np_mask nulls : List Bool) :
    (clearMask np_mask nulls).length = min np_mask.length nulls.length := by
  simp [clearMask]

lemma length_writeIdx (np_mask : List Bool) (index : Nat) (indices : List Nat) :
    (writeIdx np_mask index indices).length = min np_mask.length indices.length := by
  simp [writeIdx]

end LabelByCondition
namespace LabelByCondition

/-! ### Easy claims: no-op render, replace-in-place, batch errors -/

/-- C6: for every dataset and rule list, an empty target column name makes
render a no-op: the output dataset is the input dataset, no errors, no
column added, and the rules are never consulted. -/
theorem claim_C6_empty_target_noop (arrow_table : Table) (labels : List LabelSpec)
    (sanitize : String → List String → String × List I18nMessage) :
    render arrow_table "" labels sanitize = (some arrow_table, []) := by
  simp [render]

lemma map_fst_set_name {α : Type} (cols : List (String × α)) (name : String)
    (data : α) (h : name ∈ cols.map Prod.fst) :
    (cols.set ((cols.map Prod.fst).indexOf name) (name, data)).map Prod.fst =
      cols.map Prod.fst := by
  rw [List.map_set]
  apply List.ext_getElem?
  intro j
  rw [List.getElem?_set]
  split
  · next heq =>
    split
    · next hlt =>
      rw [← heq, List.getElem?_indexOf h]
    · next hge =>
      rw [List.getElem?_eq_none]
      omega
  · rfl

/-- C7: replacing an existing column merges the new data in place: zero
warnings, the column names (hence order and the position of the replaced column)
are unchanged, the named position now holds the new data, and every other
position is untouched. The embedding is purely functional, so the input
dataset value is never mutated. -/
theorem claim_C7_replace_in_place {α : Type} (cols : List (String × α))
    (name : String) (data : α)
    (sanitize : String → List String → String × List I18nMessage)
    (h : name ∈ cols.map Prod.fst) :
    (_add_column cols name data sanitize).2 = [] ∧
    (_add_column cols name data sanitize).1.map Prod.fst = cols.map Prod.fst ∧
    (_add_column cols name data sanitize).1[(cols.map Prod.fst).indexOf name]? =
      some (name, data) ∧
    ∀ j : Nat, j ≠ (cols.map Prod.fst).indexOf name →
      (_add_column cols name data sanitize).1[j]? = cols[j]? := by
  have hlt : (cols.map Prod.fst).indexOf name < cols.length := by
    have := List.indexOf_lt_length.mpr h
    simpa using this
  rw [_add_column]
  simp only [if_pos h, set_column]
  refine ⟨trivial, map_fst_set_name cols name data h, ?_, ?_⟩
  · exact List.getElem?_set_self hlt
  · intro j hj
    exact List.getElem?_set_ne (Ne.symm hj)

/-- Witness for C7 at a concrete two-column table. -/
theorem claim_C7_replace_in_place_witness :
    let cols : List (String × ColumnData) := [("A", .base [1]), ("B", .base [2])]
    ("A" ∈ cols.map Prod.fst) ∧
    ((_add_column cols "A" (ColumnData.base [9]) (fun n _ => (n, []))).2 = [] ∧
     (_add_column cols "A" (ColumnData.base [9]) (fun n _ => (n, []))).1.map Prod.fst =
       cols.map Prod.fst ∧
     (_add_column cols "A" (ColumnData.base [9])
         (fun n _ => (n, []))).1[(cols.map Prod.fst).indexOf "A"]? =
       some ("A", ColumnData.base [9]) ∧
     ∀ j : Nat, j ≠ (cols.map Prod.fst).indexOf "A" →
       (_add_column cols "A" (ColumnData.base [9]) (fun n _ => (n, []))).1[j]? =
         cols[j]?) :=
  ⟨by decide, claim_C7_replace_in_place _ "A" (ColumnData.base [9]) _ (by decide)⟩

lemma errors_processSpec (st : GenState) (s : LabelSpec) :
    (processSpec st s).errors =
      st.errors ++ (match s.condition with
        | some (.err e) => [transInvalidRegex e]
        | _ => []) := by
  cases hc : s.condition with
  | none => simp [processSpec, hc]
  | some ce =>
    cases ce with
    | err e => simp [processSpec, hc]
    | mask m =>
      simp only [processSpec, hc]
      split
      · simp
      · simp

lemma errors_foldl (specs : List LabelSpec) (st : GenState) :
    (specs.foldl processSpec st).errors = st.errors ++ errorsOf specs := by
  induction specs generalizing st with
  | nil => simp [errorsOf]
  | cons s rest ih =>
    rw [List.foldl_cons, ih, errors_processSpec]
    cases hc : s.condition with
    | none => simp [errorsOf, List.filterMap_cons, hc]
    | some ce =>
      cases ce with
      | err e => simp [errorsOf, List.filterMap_cons, hc]
      | mask m => simp [errorsOf, List.filterMap_cons, hc]

lemma errors_generate (numRows : Nat) (specs : List LabelSpec) :
    (_generate_label_column numRows specs).errors = errorsOf specs := by
  rw [_generate_label_column, errors_foldl]
  rfl

/-- C2: pattern errors are batched: the assembler records one error per
erroring rule, in rule order, and keeps processing the remaining rules; and
when the error list is non-empty, render returns exactly those errors and
discards the assembled label column (no output dataset). -/
theorem claim_C2_batch_error_policy (arrow_table : Table) (colname : String)
    (labels : List LabelSpec)
    (sanitize : String → List String → String × List I18nMessage)
    (h : colname ≠ "") (h2 : errorsOf labels ≠ []) :
    (_generate_label_column arrow_table.numRows labels).errors = errorsOf labels ∧
    render arrow_table colname labels sanitize = (none, errorsOf labels) := by
  refine ⟨errors_generate _ _, ?_⟩
  rw [render, if_neg h]
  have he : (_generate_label_column arrow_table.numRows labels).errors =
      errorsOf labels := errors_generate _ _
  simp only [he]
  rw [if_neg]
  simp [List.isEmpty_iff, h2]

/-- Witness for C2: two erroring rules and one valid rule; both errors are
collected and render yields no dataset. -/
theorem claim_C2_batch_error_policy_witness :
    let tbl : Table := { numRows := 2, cols := [("A", ColumnData.base [1, 2])] }
    let labels : List LabelSpec :=
      [⟨"a", some (.err ⟨"*", "no argument"⟩)⟩,
       ⟨"b", some (.mask [true, false])⟩,
       ⟨"c", some (.err ⟨"+", "no argument"⟩)⟩]
    ("B" ≠ "" ∧ errorsOf labels ≠ []) ∧
    ((_generate_label_column tbl.numRows labels).errors = errorsOf labels ∧
     render tbl "B" labels (fun n _ => (n, [])) = (none, errorsOf labels)) :=
  ⟨⟨by decide, by decide⟩,
   claim_C2_batch_error_policy _ "B" _ _ (by decide) (by decide)⟩

end LabelByCondition
namespace LabelByCondition

/-! ### Zero-row datasets and advisory naming warnings -/

lemma processSpec_of_nulls_nil (st : GenState) (s : LabelSpec) (h : st.nulls = []) :
    (processSpec st s).nulls = [] ∧ (processSpec st s).indices = st.indices := by
  cases hc : s.condition with
  | none => simp [processSpec, hc, h]
  | some ce =>
    cases ce with
    | err e => simp [processSpec, hc, h]
    | mask m => simp [processSpec, hc, h, andMask]

lemma foldl_of_nulls_nil (specs : List LabelSpec) (st : GenState) (h : st.nulls = []) :
    (specs.foldl processSpec st).nulls = [] ∧
    (specs.foldl processSpec st).indices = st.indices := by
  induction specs generalizing st with
  | nil => exact ⟨h, rfl⟩
  | cons s rest ih =>
    have hs := processSpec_of_nulls_nil st s h
    rw [List.foldl_cons]
    obtain ⟨h1, h2⟩ := ih (processSpec st s) hs.1
    exact ⟨h1, h2.trans hs.2⟩

lemma errorsOf_nil_of_noErr (labels : List LabelSpec)
    (hok : ∀ s ∈ labels, noErrCond s = true) : errorsOf labels = [] := by
  rw [errorsOf, List.filterMap_eq_nil_iff]
  intro s hs
  have hne := hok s hs
  cases hcond : s.condition with
  | none => simp
  | some ce =>
    cases ce with
    | err e => rw [noErrCond, hcond] at hne; exact absurd hne (by simp)
    | mask m => simp

/-- C5 counterexample: on a zero-row dataset, a rule whose condition carries
an invalid pattern still produces a pattern error, so the operation does not
succeed and no output dataset is produced — refuting the clause
"regardless of the rule list" of the claim. -/
theorem claim_C5_zero_rows_counterexample :
    (render { numRows := 0, cols := [("A", ColumnData.base [])] } "B"
        [⟨"a", some (.err ⟨"*", "bad"⟩)⟩] (fun n _ => (n, []))).1 = none ∧
    (render { numRows := 0, cols := [("A", ColumnData.base [])] } "B"
        [⟨"a", some (.err ⟨"*", "bad"⟩)⟩] (fun n _ => (n, []))).2 ≠ [] := by
  decide

/-- C5 amended: for every dataset with zero rows and every rule list whose
present conditions all evaluate without pattern error, the assembler returns
no errors and a dictionary-encoded column of length 0, and render produces
an output dataset. -/
theorem claim_C5_zero_rows_amended (arrow_table : Table) (colname : String)
    (labels : List LabelSpec)
    (sanitize : String → List String → String × List I18nMessage)
    (h0 : arrow_table.numRows = 0) (hc : colname ≠ "")
    (hok : ∀ s ∈ labels, noErrCond s = true) :
    (_generate_label_column arrow_table.numRows labels).errors = [] ∧
    (_generate_label_column arrow_table.numRows labels).nulls = [] ∧
    (_generate_label_column arrow_table.numRows labels).indices = [] ∧
    (render arrow_table colname labels sanitize).1.isSome = true := by
  have herr : (_generate_label_column arrow_table.numRows labels).errors = [] :=
    (errors_generate _ _).trans (errorsOf_nil_of_noErr _ hok)
  have hinit : (⟨[], List.replicate arrow_table.numRows true, [],
      List.replicate arrow_table.numRows 0⟩ : GenState).nulls = [] := by
    simp [h0]
  have hfold := foldl_of_nulls_nil labels _ hinit
  have hnulls : (_generate_label_column arrow_table.numRows labels).nulls = [] :=
    hfold.1
  have hidx : (_generate_label_column arrow_table.numRows labels).indices = [] := by
    rw [_generate_label_column]
    rw [hfold.2]
    simp [h0]
  refine ⟨herr, hnulls, hidx, ?_⟩
  rw [render, if_neg hc]
  simp only [herr, List.isEmpty_nil, if_true]
  rfl

/-- Witness for the amended C5: a zero-row table with one valid-mask rule
and one absent-condition rule. -/
theorem claim_C5_zero_rows_amended_witness :
    let tbl : Table := { numRows := 0, cols := [("A", ColumnData.base [])] }
    let labels : List LabelSpec := [⟨"a", some (.mask [])⟩, ⟨"b", none⟩]
    (tbl.numRows = 0 ∧ "B" ≠ "" ∧ ∀ s ∈ labels, noErrCond s = true) ∧
    ((_generate_label_column tbl.numRows labels).errors = [] ∧
     (_generate_label_column tbl.numRows labels).nulls = [] ∧
     (_generate_label_column tbl.numRows labels).indices = [] ∧
     (render tbl "B" labels (fun n _ => (n, []))).1.isSome = true) :=
  ⟨⟨by decide, by decide, by decide⟩,
   claim_C5_zero_rows_amended _ "B" _ _ (by decide) (by decide) (by decide)⟩

/-- C8: when the rules have no pattern errors and the target name is
genuinely new, render produces the output dataset with the cleaned name
from the sanitizer appended at the end and returns the sanitizer warnings —
a cleaning warning never suppresses output. -/
theorem claim_C8_cleaning_warning_advisory (arrow_table : Table) (colname : String)
    (labels : List LabelSpec)
    (sanitize : String → List String → String × List I18nMessage)
    (clean : String) (warns : List I18nMessage)
    (hc : colname ≠ "")
    (hnew : colname ∉ arrow_table.cols.map Prod.fst)
    (hok : ∀ s ∈ labels, noErrCond s = true)
    (hsan : sanitize colname (arrow_table.cols.map Prod.fst) = (clean, warns)) :
    render arrow_table colname labels sanitize =
      (some { arrow_table with cols := arrow_table.cols ++
          [(clean, ColumnData.dict
            (_generate_label_column arrow_table.numRows labels).indices
            (_generate_label_column arrow_table.numRows labels).nulls
            (_generate_label_column arrow_table.numRows labels).values)] },
       warns) := by
  have herr : (_generate_label_column arrow_table.numRows labels).errors = [] :=
    (errors_generate _ _).trans (errorsOf_nil_of_noErr _ hok)
  rw [render, if_neg hc]
  simp only [herr, List.isEmpty_nil, if_true]
  rw [_add_column]
  simp only [if_neg hnew, hsan]

/-- Witness for C8: a sanitizer that strips a carriage return and reports a
warning; output is still produced, carrying that warning. -/
theorem claim_C8_cleaning_warning_advisory_witness :
    let tbl : Table := { numRows := 3, cols := [("A", ColumnData.base [1, 2, 3])] }
    let labels : List LabelSpec := [⟨"a", some (.mask [false, true, false])⟩]
    let san : String → List String → String × List I18nMessage :=
      fun _ _ => ("B", [⟨"util.colnames.warnings.ascii_cleaned", "1", "B"⟩])
    ("B\r" ≠ "" ∧ "B\r" ∉ tbl.cols.map Prod.fst ∧
      (∀ s ∈ labels, noErrCond s = true) ∧
      san "B\r" (tbl.cols.map Prod.fst) =
        ("B", [⟨"util.colnames.warnings.ascii_cleaned", "1", "B"⟩])) ∧
    render tbl "B\r" labels san =
      (some { tbl with cols := tbl.cols ++
          [("B", ColumnData.dict
            (_generate_label_column tbl.numRows labels).indices
            (_generate_label_column tbl.numRows labels).nulls
            (_generate_label_column tbl.numRows labels).values)] },
       [⟨"util.colnames.warnings.ascii_cleaned", "1", "B"⟩]) :=
  ⟨⟨by decide, by decide, by decide, rfl⟩,
   claim_C8_cleaning_warning_advisory _ _ _ _ _ _ (by decide) (by decide)
     (by decide) rfl⟩

end LabelByCondition
namespace LabelByCondition

/-! ### Pointwise descriptions of one loop step -/

lemma getD_replicate_self {α : Type} (n : Nat) (a : α) (x : Nat) :
    (List.replicate n a).getD x a = a := by
  rw [List.getD_eq_getElem?_getD, List.getElem?_replicate]
  split <;> rfl

lemma getD_replicate_of_lt {α : Type} {n x : Nat} (a d : α) (h : x < n) :
    (List.replicate n a).getD x d = a := by
  rw [List.getD_eq_getElem?_getD, List.getElem?_replicate, if_pos h]
  rfl

lemma andMask_getD (mask nulls : List Bool) (h : mask.length = nulls.length)
    {r : Nat} (hr : r < nulls.length) :
    (andMask mask nulls).getD r false = (mask.getD r false && nulls.getD r true) := by
  rw [andMask, zipWith_getD _ _ _ h false true false (h ▸ hr)]

lemma clearMask_getD (np nulls : List Bool) (h : np.length = nulls.length)
    {r : Nat} (hr : r < nulls.length) :
    (clearMask np nulls).getD r true =
      if np.getD r false then false else nulls.getD r true := by
  rw [clearMask, zipWith_getD _ _ _ h false true true (h ▸ hr)]

lemma writeIdx_getD (np : List Bool) (idx : Nat) (indices : List Nat)
    (h : np.length = indices.length) {r : Nat} (hr : r < indices.length) :
    (writeIdx np idx indices).getD r 0 =
      if np.getD r false then idx else indices.getD r 0 := by
  rw [writeIdx, zipWith_getD _ _ _ h false 0 0 (h ▸ hr)]

lemma any_of_getD_true {l : List Bool} {r : Nat} (h : l.getD r false = true) :
    l.any id = true := by
  have hr : r < l.length := by
    by_contra hge
    rw [List.getD_eq_getElem?_getD, List.getElem?_eq_none (by omega)] at h
    exact absurd h (by simp)
  rw [List.getD_eq_getElem _ _ hr] at h
  rw [List.any_eq_true]
  exact ⟨l[r], List.getElem_mem hr, h⟩

lemma getD_false_of_any_false {l : List Bool} (h : l.any id = false) (r : Nat) :
    l.getD r false = false := by
  by_cases hr : r < l.length
  · rw [List.getD_eq_getElem _ _ hr]
    by_contra hx
    rw [List.any_eq_false] at h
    exact absurd (by simpa using hx) (by simpa using h l[r] (List.getElem_mem hr))
  · rw [List.getD_eq_getElem?_getD, List.getElem?_eq_none (by omega)]
    rfl

lemma indexOf?_getElem {values : List String} {v : String} {i : Nat}
    (h : values.indexOf? v = some i) : values[i]? = some v := by
  induction values generalizing i with
  | nil => exact absurd h (by simp)
  | cons x xs ih =>
    rw [List.indexOf?_cons] at h
    by_cases hx : (x == v) = true
    · rw [if_pos hx] at h
      have hi : i = 0 := by
        have := h
        simp at this
        omega
    
      subst hi
      simp [eq_of_beq hx]
    · rw [if_neg hx] at h
      rcases Option.map_eq_some'.mp h with ⟨j, hj, hij⟩
      subst hij
      simpa using ih hj

lemma resolveValue_snd_append (values : List String) (v : String) :
    ∃ ext, (resolveValue values v).2 = values ++ ext := by
  rw [resolveValue]
  cases h : values.indexOf? v with
  | none => exact ⟨[v], rfl⟩
  | some i => exact ⟨[], by simp⟩

lemma resolveValue_getElem (values : List String) (v : String) :
    (resolveValue values v).2[(resolveValue values v).1]? = some v := by
  rw [resolveValue]
  cases h : values.indexOf? v with
  | none => simp [List.getElem?_concat_length values v]
  | some i => simp [indexOf?_getElem h]

lemma resolveValue_lt (values : List String) (v : String) :
    (resolveValue values v).1 < (resolveValue values v).2.length := by
  have h := resolveValue_getElem values v
  by_contra hge
  rw [List.getElem?_eq_none (by omega)] at h
  exact absurd h (by simp)

lemma processSpec_mask_pos (st : GenState) (v : String) (mask : List Bool)
    (hguard : (andMask mask st.nulls).any id = true) :
    processSpec st ⟨v, some (.mask mask)⟩ =
      { st with
        nulls := clearMask (andMask mask st.nulls) st.nulls
        values := (resolveValue st.values v).2
        indices := if (resolveValue st.values v).1 > 0
          then writeIdx (andMask mask st.nulls) (resolveValue st.values v).1 st.indices
          else st.indices } := by
  simp only [processSpec, hguard, if_true]

lemma processSpec_mask_neg (st : GenState) (v : String) (mask : List Bool)
    (hguard : (andMask mask st.nulls).any id = false) :
    processSpec st ⟨v, some (.mask mask)⟩ = st := by
  simp only [processSpec, hguard]
  rfl

lemma processSpec_none (st : GenState) (v : String) :
    processSpec st ⟨v, none⟩ = st := rfl

lemma processSpec_err (st : GenState) (v : String) (e : RegexError) :
    processSpec st ⟨v, some (.err e)⟩ =
      { st with errors := st.errors ++ [transInvalidRegex e] } := rfl

end LabelByCondition
namespace LabelByCondition

/-! ### State lemmas for one loop step -/

lemma getD_oob {α : Type} {l : List α} {x : Nat} (d : α) (h : l.length ≤ x) :
    l.getD x d = d := by
  rw [List.getD_eq_getElem?_getD, List.getElem?_eq_none h]
  rfl

lemma processSpec_cond_none (st : GenState) (s : LabelSpec)
    (hc : s.condition = none) : processSpec st s = st := by
  simp only [processSpec, hc]

lemma processSpec_cond_err (st : GenState) (s : LabelSpec) (e : RegexError)
    (hc : s.condition = some (.err e)) :
    processSpec st s = { st with errors := st.errors ++ [transInvalidRegex e] } := by
  simp only [processSpec, hc]

lemma processSpec_cond_mask (st : GenState) (s : LabelSpec) (mask : List Bool)
    (hc : s.condition = some (.mask mask)) :
    processSpec st s = processSpec st ⟨s.value, some (.mask mask)⟩ := by
  simp only [processSpec, hc]

lemma mask_len_of_condLenOK {R : Nat} {s : LabelSpec} {mask : List Bool}
    (hc : s.condition = some (.mask mask)) (hok : condLenOK R s.condition = true) :
    mask.length = R := by
  rw [hc] at hok
  simpa [condLenOK] using hok

lemma step_nulls_getD {R : Nat} (st : GenState) (v : String) (mask : List Bool)
    (hn : st.nulls.length = R) (hm : mask.length = R)
    (hguard : (andMask mask st.nulls).any id = true)
    {r : Nat} (hr : r < R) :
    (processSpec st ⟨v, some (.mask mask)⟩).nulls.getD r true =
      if mask.getD r false && st.nulls.getD r true then false
      else st.nulls.getD r true := by
  rw [processSpec_mask_pos st v mask hguard]
  have hnp : (andMask mask st.nulls).length = st.nulls.length := by
    rw [length_andMask, hm, hn]
    omega
  rw [clearMask_getD _ _ hnp (hn ▸ hr),
    andMask_getD _ _ (by omega) (hn ▸ hr)]

lemma step_indices_getD {R : Nat} (st : GenState) (v : String) (mask : List Bool)
    (hn : st.nulls.length = R) (hi : st.indices.length = R) (hm : mask.length = R)
    (hguard : (andMask mask st.nulls).any id = true)
    {r : Nat} (hr : r < R)
    (hz : st.nulls.getD r true = true → st.indices.getD r 0 = 0) :
    (processSpec st ⟨v, some (.mask mask)⟩).indices.getD r 0 =
      if mask.getD r false && st.nulls.getD r true then (resolveValue st.values v).1
      else st.indices.getD r 0 := by
  rw [processSpec_mask_pos st v mask hguard]
  have hnp : (andMask mask st.nulls).length = st.indices.length := by
    rw [length_andMask, hm, hn, hi]
    omega
  simp only
  by_cases hp : (resolveValue st.values v).1 > 0
  · rw [if_pos hp, writeIdx_getD _ _ _ hnp (hi ▸ hr),
      andMask_getD _ _ (by omega) (hn ▸ hr)]
  · rw [if_neg hp]
    have hp0 : (resolveValue st.values v).1 = 0 := by omega
    by_cases hmn : mask.getD r false && st.nulls.getD r true
    · rw [if_pos hmn, hp0]
      refine hz ?_
      cases hnl : st.nulls.getD r true
      · rw [hnl] at hmn
        simp at hmn
      · rfl
    · rw [if_neg hmn]

lemma step_values_eq (st : GenState) (v : String) (mask : List Bool)
    (hguard : (andMask mask st.nulls).any id = true) :
    (processSpec st ⟨v, some (.mask mask)⟩).values = (resolveValue st.values v).2 := by
  rw [processSpec_mask_pos st v mask hguard]

lemma processSpec_values_append (st : GenState) (s : LabelSpec) :
    ∃ ext, (processSpec st s).values = st.values ++ ext := by
  cases hc : s.condition with
  | none => exact ⟨[], by rw [processSpec_cond_none st s hc]; simp⟩
  | some ce =>
    cases ce with
    | err e => exact ⟨[], by rw [processSpec_cond_err st s e hc]; simp⟩
    | mask m =>
      rw [processSpec_cond_mask st s m hc]
      by_cases hg : (andMask m st.nulls).any id
      · rw [step_values_eq st s.value m hg]
        exact resolveValue_snd_append st.values s.value
      · rw [processSpec_mask_neg st s.value m (by simpa using hg)]
        exact ⟨[], by simp⟩

lemma processSpec_lengths {R : Nat} (st : GenState) (s : LabelSpec)
    (hn : st.nulls.length = R) (hi : st.indices.length = R)
    (hok : condLenOK R s.condition = true) :
    (processSpec st s).nulls.length = R ∧ (processSpec st s).indices.length = R := by
  cases hc : s.condition with
  | none => rw [processSpec_cond_none st s hc]; exact ⟨hn, hi⟩
  | some ce =>
    cases ce with
    | err e => rw [processSpec_cond_err st s e hc]; exact ⟨hn, hi⟩
    | mask m =>
      have hm : m.length = R := mask_len_of_condLenOK hc hok
      rw [processSpec_cond_mask st s m hc]
      by_cases hg : (andMask m st.nulls).any id
      · rw [processSpec_mask_pos st s.value m hg]
        constructor
        · simp only
          rw [length_clearMask, length_andMask, hm, hn]
          omega
        · simp only
          split
          · rw [length_writeIdx, length_andMask, hm, hn, hi]
            omega
          · exact hi
      · rw [processSpec_mask_neg st s.value m (by simpa using hg)]
        exact ⟨hn, hi⟩

lemma processSpec_inv0 {R : Nat} (st : GenState) (s : LabelSpec)
    (hn : st.nulls.length = R) (hi : st.indices.length = R)
    (hok : condLenOK R s.condition = true)
    (hinv0 : ∀ x, st.nulls.getD x true = true → st.indices.getD x 0 = 0) :
    ∀ x, (processSpec st s).nulls.getD x true = true →
      (processSpec st s).indices.getD x 0 = 0 := by
  intro x hx
  cases hc : s.condition with
  | none => rw [processSpec_cond_none st s hc] at hx ⊢; exact hinv0 x hx
  | some ce =>
    cases ce with
    | err e => rw [processSpec_cond_err st s e hc] at hx ⊢; exact hinv0 x hx
    | mask m =>
      have hm : m.length = R := mask_len_of_condLenOK hc hok
      rw [processSpec_cond_mask st s m hc] at hx ⊢
      by_cases hg : (andMask m st.nulls).any id
      · by_cases hxR : x < R
        · rw [step_nulls_getD st s.value m hn hm hg hxR] at hx
          rw [step_indices_getD st s.value m hn hi hm hg hxR (hinv0 x)]
          by_cases hmn : m.getD x false && st.nulls.getD x true
          · rw [if_pos hmn] at hx
            exact absurd hx (by simp)
          · rw [if_neg hmn]
            rw [if_neg hmn] at hx
            exact hinv0 x hx
        · have := (processSpec_lengths st s hn hi hok).2
          rw [processSpec_cond_mask st s m hc] at this
          exact getD_oob 0 (by omega)
      · rw [processSpec_mask_neg st s.value m (by simpa using hg)] at hx ⊢
        exact hinv0 x hx

lemma processSpec_claimed {R : Nat} (st : GenState) (s : LabelSpec)
    (hn : st.nulls.length = R) (hi : st.indices.length = R)
    (hok : condLenOK R s.condition = true)
    {r : Nat} (hr : r < R) (hcl : st.nulls.getD r true = false) :
    (processSpec st s).nulls.getD r true = false ∧
    (processSpec st s).indices.getD r 0 = st.indices.getD r 0 := by
  cases hc : s.condition with
  | none => rw [processSpec_cond_none st s hc]; exact ⟨hcl, rfl⟩
  | some ce =>
    cases ce with
    | err e => rw [processSpec_cond_err st s e hc]; exact ⟨hcl, rfl⟩
    | mask m =>
      have hm : m.length = R := mask_len_of_condLenOK hc hok
      rw [processSpec_cond_mask st s m hc]
      by_cases hg : (andMask m st.nulls).any id
      · constructor
        · rw [step_nulls_getD st s.value m hn hm hg hr, hcl]
          simp
        · rw [step_indices_getD st s.value m hn hi hm hg hr
            (fun hx => by rw [hx] at hcl; exact Bool.noConfusion hcl), hcl]
          simp
      · rw [processSpec_mask_neg st s.value m (by simpa using hg)]
        exact ⟨hcl, rfl⟩

end LabelByCondition
namespace LabelByCondition

/-! ### First-match-wins -/

lemma rowLabel_foldl {R : Nat} (specs : List LabelSpec) (st : GenState) (r : Nat)
    (hn : st.nulls.length = R) (hi : st.indices.length = R) (hr : r < R)
    (hlen : ∀ s ∈ specs, condLenOK R s.condition = true)
    (hinv0 : ∀ x, st.nulls.getD x true = true → st.indices.getD x 0 = 0)
    (hidx : st.nulls.getD r true = false →
      st.indices.getD r 0 < st.values.length) :
    rowLabel (specs.foldl processSpec st) r =
      if st.nulls.getD r true then firstMatch specs r else rowLabel st r := by
  induction specs generalizing st with
  | nil =>
    simp only [List.foldl_nil, firstMatch]
    cases hcl : st.nulls.getD r true
    · simp
    · rw [rowLabel, hcl]
      simp
  | cons s rest ih =>
    rw [List.foldl_cons]
    have hok : condLenOK R s.condition = true := hlen s (by simp)
    have hlen2 : ∀ x ∈ rest, condLenOK R x.condition = true := fun x hx =>
      hlen x (by simp [hx])
    have hL := processSpec_lengths st s hn hi hok
    have hI0 := processSpec_inv0 st s hn hi hok hinv0
    cases hcl : st.nulls.getD r true
    · -- row already claimed: the step never changes its label
      have hcs := processSpec_claimed st s hn hi hok hr hcl
      obtain ⟨ext, hext⟩ := processSpec_values_append st s
      have hidx2 : st.indices.getD r 0 < st.values.length := hidx hcl
      have hidx3 : (processSpec st s).nulls.getD r true = false →
          (processSpec st s).indices.getD r 0 < (processSpec st s).values.length := by
        intro _
        rw [hcs.2, hext, List.length_append]
        omega
      rw [ih (processSpec st s) hL.1 hL.2 hlen2 hI0 hidx3, hcs.1]
      simp only [Bool.false_eq_true, if_false]
      rw [rowLabel, rowLabel, hcs.1, hcl]
      simp only [Bool.false_eq_true, if_false]
      rw [hcs.2, hext, List.get?_eq_getElem?, List.get?_eq_getElem?,
        List.getElem?_append, if_pos hidx2]
    · -- row still null
      cases hc : s.condition with
      | none =>
        rw [processSpec_cond_none st s hc,
          ih st hn hi hlen2 hinv0 hidx, hcl]
        simp only [if_true]
        rw [firstMatch, hc]
      | some ce =>
        cases ce with
        | err e =>
          rw [processSpec_cond_err st s e hc]
          rw [ih { st with errors := st.errors ++ [transInvalidRegex e] }
            hn hi hlen2 hinv0 hidx, hcl]
          simp only [if_true]
          rw [firstMatch, hc]
        | mask m =>
          have hm : m.length = R := mask_len_of_condLenOK hc hok
          rw [processSpec_cond_mask st s m hc] at hL hI0 ⊢
          by_cases hg : (andMask m st.nulls).any id
          · by_cases hmr : m.getD r false
            · -- this rule claims the row now
              have hnul2 : (processSpec st ⟨s.value, some (.mask m)⟩).nulls.getD r
                  true = false := by
                rw [step_nulls_getD st s.value m hn hm hg hr, hmr, hcl]
                simp
              have hidxv : (processSpec st ⟨s.value, some (.mask m)⟩).indices.getD r
                  0 = (resolveValue st.values s.value).1 := by
                rw [step_indices_getD st s.value m hn hi hm hg hr (hinv0 r),
                  hmr, hcl]
                simp
              have hvals : (processSpec st ⟨s.value, some (.mask m)⟩).values =
                  (resolveValue st.values s.value).2 := step_values_eq _ _ _ hg
              have hidx4 : (processSpec st ⟨s.value, some (.mask m)⟩).nulls.getD r
                  true = false →
                  (processSpec st ⟨s.value, some (.mask m)⟩).indices.getD r 0 <
                  (processSpec st ⟨s.value, some (.mask m)⟩).values.length := by
                intro _
                rw [hidxv, hvals]
                exact resolveValue_lt _ _
              rw [ih _ hL.1 hL.2 hlen2 hI0 hidx4, hnul2]
              simp only [Bool.false_eq_true, if_false]
              rw [rowLabel, hnul2]
              simp only [Bool.false_eq_true, if_false]
              rw [hidxv, hvals, List.get?_eq_getElem?, resolveValue_getElem]
              rw [List.getD_eq_getElem?_getD] at hmr
              simp [firstMatch, hc, hmr]
            · -- effective mask misses the row: it stays null through this rule
              have hmr2 : m.getD r false = false := by simpa using hmr
              have hnul2 : (processSpec st ⟨s.value, some (.mask m)⟩).nulls.getD r
                  true = true := by
                rw [step_nulls_getD st s.value m hn hm hg hr, hmr2, hcl]
                simp
              have hidx4 : (processSpec st ⟨s.value, some (.mask m)⟩).nulls.getD r
                  true = false →
                  (processSpec st ⟨s.value, some (.mask m)⟩).indices.getD r 0 <
                  (processSpec st ⟨s.value, some (.mask m)⟩).values.length := by
                intro hcontra
                rw [hnul2] at hcontra
                exact Bool.noConfusion hcontra
              rw [ih _ hL.1 hL.2 hlen2 hI0 hidx4, hnul2]
              rw [List.getD_eq_getElem?_getD] at hmr2
              simp [firstMatch, hc, hmr2]
          · -- effective mask selects no row at all
            have hg2 : (andMask m st.nulls).any id = false := by simpa using hg
            rw [processSpec_mask_neg st s.value m hg2]
            have hmr2 : m.getD r false = false := by
              have h1 := getD_false_of_any_false hg2 r
              rw [andMask_getD m st.nulls (by omega) (hn ▸ hr), hcl] at h1
              simpa using h1
            rw [ih st hn hi hlen2 hinv0 hidx]
            rw [List.getD_eq_getElem?_getD] at hmr2
            rw [List.getD_eq_getElem?_getD] at hcl
            simp [firstMatch, hc, hmr2, hcl]

end LabelByCondition
namespace LabelByCondition

/-! ### The index-0 write-skipping optimization -/

lemma writeIdx_zero_eq {R : Nat} (np : List Bool) (indices : List Nat)
    (hnp : np.length = R) (hi : indices.length = R)
    (h0 : ∀ x, np.getD x false = true → indices.getD x 0 = 0) :
    writeIdx np 0 indices = indices := by
  apply List.ext_getElem?
  intro x
  by_cases hx : x < R
  · have hx1 : x < np.length := by omega
    have hx2 : x < indices.length := by omega
    rw [writeIdx, List.getElem?_zipWith, List.getElem?_eq_getElem hx1,
      List.getElem?_eq_getElem hx2]
    simp only
    cases hb : np[x] with
    | false => simp
    | true =>
      have hz : indices.getD x 0 = 0 := by
        apply h0
        rw [List.getD_eq_getElem _ _ hx1, hb]
      rw [List.getD_eq_getElem _ _ hx2] at hz
      simp [hz]
  · rw [List.getElem?_eq_none (l := writeIdx np 0 indices) (by
      rw [length_writeIdx]; omega),
      List.getElem?_eq_none (by omega)]

lemma processSpecNaive_cond_none (st : GenState) (s : LabelSpec)
    (hc : s.condition = none) : processSpecNaive st s = st := by
  simp only [processSpecNaive, hc]

lemma processSpecNaive_cond_err (st : GenState) (s : LabelSpec) (e : RegexError)
    (hc : s.condition = some (.err e)) :
    processSpecNaive st s = { st with errors := st.errors ++ [transInvalidRegex e] } := by
  simp only [processSpecNaive, hc]

lemma processSpecNaive_cond_mask (st : GenState) (s : LabelSpec) (mask : List Bool)
    (hc : s.condition = some (.mask mask)) :
    processSpecNaive st s = processSpecNaive st ⟨s.value, some (.mask mask)⟩ := by
  simp only [processSpecNaive, hc]

lemma processSpecNaive_mask_pos (st : GenState) (v : String) (mask : List Bool)
    (hguard : (andMask mask st.nulls).any id = true) :
    processSpecNaive st ⟨v, some (.mask mask)⟩ =
      { st with
        nulls := clearMask (andMask mask st.nulls) st.nulls
        values := (resolveValue st.values v).2
        indices := writeIdx (andMask mask st.nulls) (resolveValue st.values v).1
          st.indices } := by
  simp only [processSpecNaive, hguard, if_true]

lemma processSpecNaive_mask_neg (st : GenState) (v : String) (mask : List Bool)
    (hguard : (andMask mask st.nulls).any id = false) :
    processSpecNaive st ⟨v, some (.mask mask)⟩ = st := by
  simp only [processSpecNaive, hguard]
  rfl

lemma step_naive_eq {R : Nat} (st : GenState) (s : LabelSpec)
    (hn : st.nulls.length = R) (hi : st.indices.length = R)
    (hok : condLenOK R s.condition = true)
    (hinv0 : ∀ x, st.nulls.getD x true = true → st.indices.getD x 0 = 0) :
    processSpecNaive st s = processSpec st s := by
  cases hc : s.condition with
  | none => rw [processSpecNaive_cond_none st s hc, processSpec_cond_none st s hc]
  | some ce =>
    cases ce with
    | err e =>
      rw [processSpecNaive_cond_err st s e hc, processSpec_cond_err st s e hc]
    | mask m =>
      have hm : m.length = R := mask_len_of_condLenOK hc hok
      rw [processSpecNaive_cond_mask st s m hc, processSpec_cond_mask st s m hc]
      by_cases hg : (andMask m st.nulls).any id
      · rw [processSpecNaive_mask_pos st s.value m hg,
          processSpec_mask_pos st s.value m hg]
        by_cases hp : (resolveValue st.values s.value).1 > 0
        · rw [if_pos hp]
        · rw [if_neg hp]
          have hp0 : (resolveValue st.values s.value).1 = 0 := by omega
          rw [hp0]
          have hnp : (andMask m st.nulls).length = R := by
            rw [length_andMask, hm, hn]
            omega
          rw [writeIdx_zero_eq (andMask m st.nulls) st.indices hnp hi]
          intro x hx
          by_cases hxR : x < R
          · rw [andMask_getD m st.nulls (by omega) (hn ▸ hxR)] at hx
            refine hinv0 x ?_
            cases hnl : st.nulls.getD x true
            · rw [hnl] at hx
              simp at hx
            · rfl
          · rw [getD_oob false (by omega)] at hx
            exact Bool.noConfusion hx
      · rw [processSpecNaive_mask_neg st s.value m (by simpa using hg),
          processSpec_mask_neg st s.value m (by simpa using hg)]

lemma foldl_naive_eq {R : Nat} (specs : List LabelSpec) (st : GenState)
    (hn : st.nulls.length = R) (hi : st.indices.length = R)
    (hlen : ∀ s ∈ specs, condLenOK R s.condition = true)
    (hinv0 : ∀ x, st.nulls.getD x true = true → st.indices.getD x 0 = 0) :
    specs.foldl processSpecNaive st = specs.foldl processSpec st := by
  induction specs generalizing st with
  | nil => rfl
  | cons s rest ih =>
    have hok : condLenOK R s.condition = true := hlen s (by simp)
    rw [List.foldl_cons, List.foldl_cons, step_naive_eq st s hn hi hok hinv0]
    have hL := processSpec_lengths st s hn hi hok
    exact ih (processSpec st s) hL.1 hL.2 (fun x hx => hlen x (by simp [hx]))
      (processSpec_inv0 st s hn hi hok hinv0)

/-- C9: the index-0 write-skipping optimization is behavior-preserving: under
the evaluator length contract, the naive variant that writes the resolved
dictionary index unconditionally for every effectively-selected row produces
exactly the same state (indices, null bitmap, dictionary and errors) as the
implementation. -/
theorem claim_C9_zero_write_skip_equiv (numRows : Nat)
    (label_specs : List LabelSpec)
    (hlen : ∀ s ∈ label_specs, condLenOK numRows s.condition = true) :
    _generate_label_column_naive numRows label_specs =
      _generate_label_column numRows label_specs := by
  rw [_generate_label_column_naive, _generate_label_column]
  exact foldl_naive_eq label_specs _ (by simp) (by simp) hlen
    (fun x _ => by
      by_cases hx : x < numRows
      · exact getD_replicate_of_lt 0 0 hx
      · exact getD_oob 0 (by simp; omega))

/-- Witness for C9: two overlapping rules over three rows, where the second
writes a nonzero index and the first exercises the skipped zero write. -/
theorem claim_C9_zero_write_skip_equiv_witness :
    let specs : List LabelSpec :=
      [⟨"a", some (.mask [false, true, false])⟩,
       ⟨"b", some (.mask [true, true, true])⟩]
    (∀ s ∈ specs, condLenOK 3 s.condition = true) ∧
    _generate_label_column_naive 3 specs = _generate_label_column 3 specs :=
  ⟨by decide, claim_C9_zero_write_skip_equiv 3 _ (by decide)⟩

end LabelByCondition
namespace LabelByCondition

/-! ### Well-formedness of the produced dictionary array -/

lemma indexOf?_none_not_mem {values : List String} {v : String}
    (h : values.indexOf? v = none) : v ∉ values := by
  intro hm
  rw [List.indexOf?_eq_none_iff] at h
  have h2 := h v hm
  simp at h2

lemma resolveValue_nodup (values : List String) (v : String)
    (h : values.Nodup) : (resolveValue values v).2.Nodup := by
  rw [resolveValue]
  cases hio : values.indexOf? v with
  | some i => exact h
  | none =>
    have hv : v ∉ values := indexOf?_none_not_mem hio
    simp [List.nodup_append, h, hv]

lemma resolveValue_le_length (values : List String) (v : String) :
    values.length ≤ (resolveValue values v).2.length := by
  obtain ⟨ext, hext⟩ := resolveValue_snd_append values v
  rw [hext, List.length_append]
  omega

lemma processSpec_wf {R : Nat} (st : GenState) (s : LabelSpec)
    (hn : st.nulls.length = R) (hi : st.indices.length = R)
    (hok : condLenOK R s.condition = true)
    (hval : st.values.Nodup)
    (hidx : ∀ x, st.nulls.getD x true = false →
      st.indices.getD x 0 < st.values.length)
    (hinv0 : ∀ x, st.nulls.getD x true = true → st.indices.getD x 0 = 0) :
    (processSpec st s).values.Nodup ∧
    ∀ x, (processSpec st s).nulls.getD x true = false →
      (processSpec st s).indices.getD x 0 < (processSpec st s).values.length := by
  cases hc : s.condition with
  | none => rw [processSpec_cond_none st s hc]; exact ⟨hval, hidx⟩
  | some ce =>
    cases ce with
    | err e => rw [processSpec_cond_err st s e hc]; exact ⟨hval, hidx⟩
    | mask m =>
      have hm : m.length = R := mask_len_of_condLenOK hc hok
      rw [processSpec_cond_mask st s m hc]
      by_cases hg : (andMask m st.nulls).any id
      · constructor
        · rw [step_values_eq st s.value m hg]
          exact resolveValue_nodup st.values s.value hval
        intro x hx
        by_cases hxR : x < R
        · rw [step_nulls_getD st s.value m hn hm hg hxR] at hx
          rw [step_indices_getD st s.value m hn hi hm hg hxR (hinv0 x),
            step_values_eq st s.value m hg]
          by_cases hmn : m.getD x false && st.nulls.getD x true
          · rw [if_pos hmn]
            exact resolveValue_lt st.values s.value
          · rw [if_neg hmn]
            rw [if_neg hmn] at hx
            calc st.indices.getD x 0 < st.values.length := hidx x hx
              _ ≤ (resolveValue st.values s.value).2.length :=
                resolveValue_le_length st.values s.value
        · exfalso
          have hL := processSpec_lengths st s hn hi hok
          rw [processSpec_cond_mask st s m hc] at hL
          rw [getD_oob true (by omega)] at hx
          exact Bool.noConfusion hx
      · rw [processSpec_mask_neg st s.value m (by simpa using hg)]
        exact ⟨hval, hidx⟩

lemma foldl_wf {R : Nat} (specs : List LabelSpec) (st : GenState)
    (hn : st.nulls.length = R) (hi : st.indices.length = R)
    (hlen : ∀ s ∈ specs, condLenOK R s.condition = true)
    (hval : st.values.Nodup)
    (hidx : ∀ x, st.nulls.getD x true = false →
      st.indices.getD x 0 < st.values.length)
    (hinv0 : ∀ x, st.nulls.getD x true = true → st.indices.getD x 0 = 0) :
    (specs.foldl processSpec st).values.Nodup ∧
    ∀ x, (specs.foldl processSpec st).nulls.getD x true = false →
      (specs.foldl processSpec st).indices.getD x 0 <
        (specs.foldl processSpec st).values.length := by
  induction specs generalizing st with
  | nil => exact ⟨hval, hidx⟩
  | cons s rest ih =>
    have hok : condLenOK R s.condition = true := hlen s (by simp)
    have hL := processSpec_lengths st s hn hi hok
    have hwf := processSpec_wf st s hn hi hok hval hidx hinv0
    rw [List.foldl_cons]
    exact ih (processSpec st s) hL.1 hL.2 (fun x hx => hlen x (by simp [hx]))
      hwf.1 hwf.2 (processSpec_inv0 st s hn hi hok hinv0)

lemma generate_wf (numRows : Nat) (specs : List LabelSpec)
    (hlen : ∀ s ∈ specs, condLenOK numRows s.condition = true) :
    (_generate_label_column numRows specs).values.Nodup ∧
    ∀ x, (_generate_label_column numRows specs).nulls.getD x true = false →
      (_generate_label_column numRows specs).indices.getD x 0 <
        (_generate_label_column numRows specs).values.length := by
  rw [_generate_label_column]
  refine foldl_wf specs _ (by simp) (by simp) hlen (by simp) ?_ ?_
  · intro x hx
    by_cases hxR : x < numRows
    · rw [getD_replicate_of_lt true true hxR] at hx
      exact Bool.noConfusion hx
    · rw [getD_oob true (by simp; omega)] at hx
      exact Bool.noConfusion hx
  · intro x _
    by_cases hxR : x < numRows
    · exact getD_replicate_of_lt 0 0 hxR
    · exact getD_oob 0 (by simp; omega)

/-- C10: after each rule is processed (the state after any prefix of the
rule list) and at return, every row not marked null carries an index
strictly below the current dictionary size, and the dictionary values are
pairwise distinct — the returned array never references a non-existent
dictionary entry. -/
theorem claim_C10_wellformed_invariant (numRows : Nat)
    (label_specs : List LabelSpec) (k : Nat)
    (hlen : ∀ s ∈ label_specs, condLenOK numRows s.condition = true) :
    (_generate_label_column numRows (label_specs.take k)).values.Nodup ∧
    ∀ x, (_generate_label_column numRows (label_specs.take k)).nulls.getD x true =
        false →
      (_generate_label_column numRows (label_specs.take k)).indices.getD x 0 <
        (_generate_label_column numRows (label_specs.take k)).values.length :=
  generate_wf numRows (label_specs.take k)
    (fun s hs => hlen s (List.take_subset k label_specs hs))

/-- Witness for C10 after the first of two rules. -/
theorem claim_C10_wellformed_invariant_witness :
    let specs : List LabelSpec :=
      [⟨"a", some (.mask [false, true, false])⟩,
       ⟨"b", some (.mask [true, true, true])⟩]
    (∀ s ∈ specs, condLenOK 3 s.condition = true) ∧
    ((_generate_label_column 3 (specs.take 1)).values.Nodup ∧
     ∀ x, (_generate_label_column 3 (specs.take 1)).nulls.getD x true = false →
       (_generate_label_column 3 (specs.take 1)).indices.getD x 0 <
         (_generate_label_column 3 (specs.take 1)).values.length) :=
  ⟨by decide, claim_C10_wellformed_invariant 3 _ 1 (by decide)⟩

end LabelByCondition
namespace LabelByCondition

/-! ### Dictionary contents, order and deduplication -/

lemma lt_of_getElem?_some {α : Type} {l : List α} {i : Nat} {a : α}
    (h : l[i]? = some a) : i < l.length := by
  by_contra hge
  rw [List.getElem?_eq_none (by omega)] at h
  exact Option.noConfusion h

lemma mem_of_getElem?_some {α : Type} {l : List α} {i : Nat} {a : α}
    (h : l[i]? = some a) : a ∈ l := by
  have hi : i < l.length := lt_of_getElem?_some h
  rw [List.getElem?_eq_getElem hi] at h
  exact (Option.some.inj h) ▸ List.getElem_mem hi

lemma indexOf?_some_of_mem {values : List String} {v : String} (h : v ∈ values) :
    values.indexOf? v ≠ none := by
  intro hio
  exact absurd h (indexOf?_none_not_mem hio)

lemma resolveValue_snd_ite (values : List String) (v : String) :
    (resolveValue values v).2 = if v ∈ values then values else values ++ [v] := by
  rw [resolveValue]
  cases hio : values.indexOf? v with
  | some i =>
    have hmem : v ∈ values := mem_of_getElem?_some (indexOf?_getElem hio)
    rw [if_pos hmem]
  | none =>
    rw [if_neg (indexOf?_none_not_mem hio)]

lemma foldl_values (specs : List LabelSpec) (st : GenState) :
    (specs.foldl processSpec st).values =
      dedupAgainst (effValues specs st.nulls) st.values := by
  induction specs generalizing st with
  | nil => simp [effValues, dedupAgainst]
  | cons s rest ih =>
    rw [List.foldl_cons]
    cases hc : s.condition with
    | none =>
      rw [processSpec_cond_none st s hc, ih st]
      simp only [effValues, hc]
    | some ce =>
      cases ce with
      | err e =>
        rw [processSpec_cond_err st s e hc,
          ih { st with errors := st.errors ++ [transInvalidRegex e] }]
        simp only [effValues, hc]
      | mask m =>
        rw [processSpec_cond_mask st s m hc]
        by_cases hg : (andMask m st.nulls).any id
        · rw [processSpec_mask_pos st s.value m hg]
          rw [ih { st with
            nulls := clearMask (andMask m st.nulls) st.nulls
            values := (resolveValue st.values s.value).2
            indices := if (resolveValue st.values s.value).1 > 0
              then writeIdx (andMask m st.nulls) (resolveValue st.values s.value).1
                st.indices
              else st.indices }]
          simp only [effValues, hc, hg, if_true]
          rw [dedupAgainst, resolveValue_snd_ite]
          by_cases hmem : s.value ∈ st.values
          · rw [if_pos hmem, if_pos hmem]
          · rw [if_neg hmem, if_neg hmem]
        · have hg2 : (andMask m st.nulls).any id = false := by simpa using hg
          rw [processSpec_mask_neg st s.value m hg2, ih st]
          simp only [effValues, hc, hg2]
          rw [if_neg (by simp)]

lemma generate_values (numRows : Nat) (specs : List LabelSpec) :
    (_generate_label_column numRows specs).values =
      dedupAgainst (effValues specs (List.replicate numRows true)) [] := by
  rw [_generate_label_column, foldl_values]

/-- C3: the output dictionary holds exactly the first occurrences of the
label values of the rules whose effective mask (raw mask intersected with
still-unlabeled rows) selects at least one row, in the order those rules
fire — so a rule whose effective selection is empty (including one matching
only already-claimed rows) never contributes an entry, and the order is
effective-firing order, not input-rule order. -/
theorem claim_C3_dict_contents_order (numRows : Nat) (label_specs : List LabelSpec) :
    (_generate_label_column numRows label_specs).values =
      dedupAgainst (effValues label_specs (List.replicate numRows true)) [] :=
  generate_values numRows label_specs

lemma dedupAgainst_nodup (l : List String) (seen : List String)
    (h : seen.Nodup) : (dedupAgainst l seen).Nodup := by
  induction l generalizing seen with
  | nil => exact h
  | cons v vs ih =>
    rw [dedupAgainst]
    by_cases hmem : v ∈ seen
    · rw [if_pos hmem]
      exact ih seen h
    · rw [if_neg hmem]
      exact ih (seen ++ [v]) (by simp [List.nodup_append, h, hmem])

lemma dedupAgainst_prefix (l : List String) (seen : List String) :
    ∃ ext, dedupAgainst l seen = seen ++ ext := by
  induction l generalizing seen with
  | nil => exact ⟨[], by simp [dedupAgainst]⟩
  | cons v vs ih =>
    rw [dedupAgainst]
    by_cases hmem : v ∈ seen
    · rw [if_pos hmem]
      exact ih seen
    · rw [if_neg hmem]
      obtain ⟨ext, hext⟩ := ih (seen ++ [v])
      exact ⟨v :: ext, by simp [hext]⟩

lemma mem_dedupAgainst_of_mem (l : List String) (seen : List String)
    {a : String} (h : a ∈ l) : a ∈ dedupAgainst l seen := by
  induction l generalizing seen with
  | nil => exact absurd h (by simp)
  | cons v vs ih =>
    rw [dedupAgainst]
    rcases List.mem_cons.mp h with ha | ha
    · subst ha
      by_cases hmem : a ∈ seen
      · rw [if_pos hmem]
        obtain ⟨ext, hext⟩ := dedupAgainst_prefix vs seen
        rw [hext]
        exact List.mem_append_left ext hmem
      · rw [if_neg hmem]
        obtain ⟨ext, hext⟩ := dedupAgainst_prefix vs (seen ++ [a])
        rw [hext]
        simp
    · by_cases hmem : v ∈ seen
      · rw [if_pos hmem]
        exact ih seen ha
      · rw [if_neg hmem]
        exact ih (seen ++ [v]) ha

/-- C4: when two rules carry the same label value and both fire with
non-empty effective selections, the dictionary holds exactly one entry for
that value, and every row labeled with it references the index of that
single entry. -/
theorem claim_C4_dedup_single_entry (numRows : Nat) (label_specs : List LabelSpec)
    (v : String)
    (h2 : 2 ≤ (effValues label_specs (List.replicate numRows true)).count v) :
    (_generate_label_column numRows label_specs).values.count v = 1 ∧
    ∀ r : Nat,
      rowLabel (_generate_label_column numRows label_specs) r = some v →
      (_generate_label_column numRows label_specs).indices.getD r 0 =
        (_generate_label_column numRows label_specs).values.indexOf v := by
  have hval := generate_values numRows label_specs
  have hnd : (_generate_label_column numRows label_specs).values.Nodup := by
    rw [hval]
    exact dedupAgainst_nodup _ [] (by simp)
  have hmemEff : v ∈ effValues label_specs (List.replicate numRows true) := by
    have hpos : 0 < (effValues label_specs (List.replicate numRows true)).count v :=
      by omega
    exact List.count_pos_iff.mp hpos
  have hmem : v ∈ (_generate_label_column numRows label_specs).values := by
    rw [hval]
    exact mem_dedupAgainst_of_mem _ [] hmemEff
  refine ⟨List.count_eq_one_of_mem hnd hmem, ?_⟩
  intro r hrl
  rw [rowLabel] at hrl
  by_cases hnl : (_generate_label_column numRows label_specs).nulls.getD r true
  · rw [if_pos hnl] at hrl
    exact absurd hrl (by simp)
  · rw [if_neg hnl, List.get?_eq_getElem?] at hrl
    have hlt : (_generate_label_column numRows label_specs).indices.getD r 0 <
        (_generate_label_column numRows label_specs).values.length :=
      lt_of_getElem?_some hrl
    have hio := List.getElem?_indexOf hmem
    exact List.getElem?_inj hlt hnd (hrl.trans hio.symm)

/-- Witness for C4: two disjoint rules with the same value over three rows.
Both fire, yet the dictionary holds a single entry and both labeled rows
reference index 0. -/
theorem claim_C4_dedup_single_entry_witness :
    let specs : List LabelSpec :=
      [⟨"a", some (.mask [false, true, false])⟩,
       ⟨"a", some (.mask [false, false, true])⟩]
    (2 ≤ (effValues specs (List.replicate 3 true)).count "a") ∧
    ((_generate_label_column 3 specs).values.count "a" = 1 ∧
     ∀ r : Nat, rowLabel (_generate_label_column 3 specs) r = some "a" →
       (_generate_label_column 3 specs).indices.getD r 0 =
         (_generate_label_column 3 specs).values.indexOf "a") :=
  ⟨by decide, claim_C4_dedup_single_entry 3 _ "a" (by decide)⟩

end LabelByCondition
namespace LabelByCondition

/-! ### First-match-wins, stated per row -/

/-- C1: first-match-wins labeling. For every rule list satisfying the
evaluator length contract and every row of the dataset, the assembled label
of that row is exactly the value of the first rule whose condition is
present, evaluates without error, and whose mask is true at that row; once
assigned, later rules never change the row (the first-match value is what
survives to the returned array), and the row is null in the output exactly
when no such rule exists. -/
theorem claim_C1_first_match_wins (numRows : Nat) (label_specs : List LabelSpec)
    (r : Nat) (hr : r < numRows)
    (hlen : ∀ s ∈ label_specs, condLenOK numRows s.condition = true) :
    rowLabel (_generate_label_column numRows label_specs) r =
      firstMatch label_specs r ∧
    ((_generate_label_column numRows label_specs).nulls.getD r true = true ↔
      firstMatch label_specs r = none) := by
  have heq : rowLabel (_generate_label_column numRows label_specs) r =
      firstMatch label_specs r := by
    rw [_generate_label_column]
    rw [rowLabel_foldl label_specs _ r (by simp) (by simp) hr hlen
      (fun x _ => by
        by_cases hx : x < numRows
        · exact getD_replicate_of_lt 0 0 hx
        · exact getD_oob 0 (by simp; omega))
      (fun hcontra => by
        rw [getD_replicate_of_lt true true hr] at hcontra
        exact Bool.noConfusion hcontra)]
    rw [if_pos]
    rw [getD_replicate_of_lt true true hr]
  refine ⟨heq, ?_, ?_⟩
  · intro hnl
    rw [← heq, rowLabel, if_pos hnl]
  · intro hfm
    cases hnl : (_generate_label_column numRows label_specs).nulls.getD r true with
    | false =>
      exfalso
      have hwf := (generate_wf numRows label_specs hlen).2 r hnl
      have hlab : rowLabel (_generate_label_column numRows label_specs) r =
          (_generate_label_column numRows label_specs).values.get?
            ((_generate_label_column numRows label_specs).indices.getD r 0) := by
        rw [rowLabel, hnl]
        simp
      rw [heq, hfm] at hlab
      rw [List.get?_eq_getElem?, List.getElem?_eq_getElem hwf] at hlab
      exact Option.noConfusion hlab
    | true => rfl

/-- Witness for C1: three rows, a narrow first rule and a wide second rule;
row 2 falls to the second rule while row 1 keeps the value of rule 1. -/
theorem claim_C1_first_match_wins_witness :
    let specs : List LabelSpec :=
      [⟨"a", some (.mask [false, true, false])⟩,
       ⟨"b", some (.mask [false, true, true])⟩]
    ((2 < 3 ∧ ∀ s ∈ specs, condLenOK 3 s.condition = true) ∧
      (rowLabel (_generate_label_column 3 specs) 2 = firstMatch specs 2 ∧
       ((_generate_label_column 3 specs).nulls.getD 2 true = true ↔
         firstMatch specs 2 = none))) ∧
    rowLabel (_generate_label_column 3 specs) 2 = some "b" :=
  ⟨⟨⟨by decide, by decide⟩,
    claim_C1_first_match_wins 3 _ 2 (by decide) (by decide)⟩, by decide⟩

end LabelByCondition
